import Mathlib

/-!
# SiteSearch crawler (`lib/crawl.go`): embedding and properties

The Go source is embedded shallowly.

* A Go `string` is a list of characters (valid UTF-8 text).
* A Go `map[string]bool` is an association list with the map's lookup (a missing
  key reads as `false`) and assignment; ranging over the map visits the keys of
  the list, and every statement about a range loop is proved for every list, hence
  for every iteration order.
* A `float64` is a dyadic number `m * 2 ^ e`, an infinity or a NaN.
* A channel is the list of the values sent on it, oldest first.
* Functions the file calls but does not define (`url.Parse`, `regexp.MatchString`,
  `strconv.ParseFloat`, `snowball.Stem`, and the package's own `Download`,
  `downloadRobots`, `Extract`, `Clean`) are parameters of the definitions that call
  them.
* Timing diagnostics (`avgTime`) and the log lines of the workers are left out; the
  log line of `Crawl` is kept.
-/

namespace Crawler

/-! ## Strings -/

/-- Go `string`. -/
abbrev GoString := List Char

/-- Go `unicode.IsSpace`: the characters `strings.TrimSpace` removes. -/
def isSpace (c : Char) : Bool :=
  let n := c.toNat
  (9 ≤ n && n ≤ 13) || n == 32 || n == 0x85 || n == 0xA0 || n == 0x1680 ||
  (0x2000 ≤ n && n ≤ 0x200A) || n == 0x2028 || n == 0x2029 || n == 0x202F ||
  n == 0x205F || n == 0x3000

/-- Go `strings.HasPrefix`. -/
def HasPrefix (s p : GoString) : Bool :=
  match p, s with
  | [], _ => true
  | _ :: _, [] => false
  | a :: p', b :: s' => a == b && HasPrefix s' p'

/-- Go `strings.TrimPrefix`. -/
def TrimPrefix (s p : GoString) : GoString :=
  if HasPrefix s p then s.drop p.length else s

/-- Go `strings.TrimSpace`. -/
def TrimSpace (s : GoString) : GoString :=
  ((s.dropWhile isSpace).reverse.dropWhile isSpace).reverse

/-- Go `strings.ReplaceAll` for a one-character `old`. -/
def ReplaceAll (s : GoString) (old : Char) (new : GoString) : GoString :=
  match s with
  | [] => []
  | c :: cs => if c = old then new ++ ReplaceAll cs old new else c :: ReplaceAll cs old new

/-- Go `strings.Split` for a one-character separator: never the empty list. -/
def Split (s : GoString) (sep : Char) : List GoString :=
  match s with
  | [] => [[]]
  | c :: cs =>
    if c = sep then [] :: Split cs sep
    else
      match Split cs sep with
      | [] => [[c]]
      | l :: ls => (c :: l) :: ls

/-! ## Maps -/

/-- Go `map[string]bool`. -/
abbrev GoMap := List (GoString × Bool)

/-- Map lookup `m[k]`: `false` for a missing key. -/
def mapGet (m : GoMap) (k : GoString) : Bool :=
  match m with
  | [] => false
  | (k', v) :: r => if k' = k then v else mapGet r k

/-- Map assignment `m[k] = v`. -/
def mapSet (m : GoMap) (k : GoString) (v : Bool) : GoMap :=
  match m with
  | [] => [(k, v)]
  | (k', v') :: r => if k' = k then (k, v) :: r else (k', v') :: mapSet r k v

/-- The keys a `range` over the map visits. -/
def mapKeys (m : GoMap) : List GoString := m.map Prod.fst

/-! ## Numbers and durations -/

/-- Go `float64`: `finite m e` is `m * 2 ^ e`. -/
inductive Float64
  | finite (m e : Int)
  | posInf
  | negInf
  | nan
  deriving DecidableEq, Repr

/-- The `float64` nearest to `0.1`, the literal of `loadRobots`. -/
def defaultCrawlDelay : Float64 := .finite 3602879701896397 (-55)

/-- Go `time.Second`, in nanoseconds. -/
def Second : Int := 1000000000

/-- Conversion `int64(f)` of a `float64`: the fraction is discarded (truncation
towards zero); `none` where Go leaves the result implementation-dependent
(NaN, infinities, values outside `int64`). -/
def float64ToInt64 : Float64 → Option Int
  | .finite m e =>
    let t : Int := if 0 ≤ e then m * 2 ^ e.toNat else m.tdiv (2 ^ (-e).toNat)
    if -(2 ^ 63) ≤ t ∧ t < 2 ^ 63 then some t else none
  | _ => none

/-- Wrap-around of `int64` arithmetic. -/
def wrapInt64 (x : Int) : Int := (x + 2 ^ 63) % 2 ^ 64 - 2 ^ 63

/-- The argument of `time.Sleep` in `downloadWorker`:
`time.Duration(crawlDelay) * time.Second`, in nanoseconds. -/
def sleepArg (crawlDelay : Float64) : Option Int :=
  (float64ToInt64 crawlDelay).map (fun d => wrapInt64 (d * Second))

/-- Time `time.Sleep d` pauses, in nanoseconds: nothing for `d ≤ 0`. -/
def Sleep (d : Int) : Int := if d ≤ 0 then 0 else d

/-! ## `loadRobots` -/

/-- The local variables of the parsing loop of `loadRobots`. -/
structure RobotsState where
  crawlDelay : Float64
  dissalowList : GoMap
  currUser : Bool
  deriving DecidableEq, Repr

/-- One iteration of the loop over `lines` in `loadRobots`. -/
def robotsLine (ParseFloat : GoString → Option Float64) (st : RobotsState)
    (line : GoString) : RobotsState :=
  if HasPrefix line "User-agent:".toList then
    if HasPrefix line "User-agent: *".toList then { st with currUser := true }
    else { st with currUser := false }
  else if st.currUser && HasPrefix line "Disallow:".toList then
    let filePath := TrimSpace (TrimPrefix line "Disallow:".toList)
    let dissalowed := ReplaceAll filePath '*' ".*".toList
    { st with dissalowList := mapSet st.dissalowList dissalowed false }
  else if HasPrefix line "Crawl-delay:".toList then
    let delay := TrimSpace (TrimPrefix line "Crawl-delay:".toList)
    match ParseFloat delay with
    | none => st
    | some i => { st with crawlDelay := i }
  else st

/-- The state `loadRobots` starts its loop in. -/
def robotsInit : RobotsState :=
  { crawlDelay := defaultCrawlDelay, dissalowList := [], currUser := false }

/-- Go `loadRobots`. `downloadRobots` returns `none` for an error; `ParseFloat s`
is `strconv.ParseFloat(s, 64)`, `none` for an error. -/
def loadRobots (downloadRobots : GoString → Option GoString)
    (ParseFloat : GoString → Option Float64) (hostName : GoString) : Float64 × GoMap :=
  let robotsUrl := "http://".toList ++ hostName ++ "/robots.txt".toList
  match downloadRobots robotsUrl with
  | none => (defaultCrawlDelay, [])
  | some res =>
    let st := (Split res '\n').foldl (robotsLine ParseFloat) robotsInit
    (st.crawlDelay, st.dissalowList)

/-! ## `downloadWorker` -/

/-- Go `downloadResults`: what `Download` sends on the extract channel. -/
structure downloadResults where
  url : GoString
  data : List Nat
  deriving DecidableEq, Repr

/-- The loop of `downloadWorker` over the disallow list, with its `break`:
the value of `allowed` after it. -/
def allowed (MatchString : GoString → GoString → Bool) (keys : List GoString)
    (currentUrl : GoString) : Bool :=
  match keys with
  | [] => true
  | dissalowedPath :: rest =>
    if MatchString dissalowedPath currentUrl then false
    else allowed MatchString rest currentUrl

/-- What a download worker has done: the values on `chExtract`, the URLs
`Download` was called with, and the arguments of its `time.Sleep` calls. -/
structure DownloadState where
  chExtract : List downloadResults
  fetched : List GoString
  slept : List (Option Int)
  deriving DecidableEq, Repr

/-- One iteration of `downloadWorker`, for the task `currentUrl`. `Download u`
is the list of values `Download(u, chExtract)` sends. -/
def downloadStep (MatchString : GoString → GoString → Bool)
    (Download : GoString → List downloadResults) (dissalowList : GoMap)
    (crawlDelay : Float64) (st : DownloadState) (currentUrl : GoString) : DownloadState :=
  if allowed MatchString (mapKeys dissalowList) currentUrl then
    { chExtract := st.chExtract ++ Download currentUrl,
      fetched := st.fetched ++ [currentUrl],
      slept := st.slept ++ [sleepArg crawlDelay] }
  else st

/-- Go `downloadWorker` on the tasks it receives, in order. -/
def downloadWorker (MatchString : GoString → GoString → Bool)
    (Download : GoString → List downloadResults) (dissalowList : GoMap)
    (crawlDelay : Float64) (st : DownloadState) (tasks : List GoString) : DownloadState :=
  tasks.foldl (downloadStep MatchString Download dissalowList crawlDelay) st

/-! ## `indexWorker` -/

/-- The two members of `url.URL` the crawler reads: the field `Host` and the
result of the method `String()`. -/
structure URL where
  Host : GoString
  String : GoString
  deriving DecidableEq, Repr

/-- What the index workers share and produce: the visited map, the values sent
on `chDownload`, and the calls of `AddToIndex`. -/
structure IndexState where
  visitedUrls : GoMap
  chDownload : List GoString
  added : List (GoString × List GoString)
  deriving DecidableEq, Repr

/-- The critical section of `indexWorker` for one cleaned link. -/
def linkStep (hostName : GoString) (st : IndexState) (cleanedURL : URL) : IndexState :=
  if !mapGet st.visitedUrls cleanedURL.String && hostName == cleanedURL.Host then
    { st with
      chDownload := st.chDownload ++ [cleanedURL.String],
      visitedUrls := mapSet st.visitedUrls cleanedURL.String true }
  else st

/-- The stemming loop of `indexWorker`: the value of `currentWords` after it. -/
def stemWords (Stem : GoString → GoString → Bool → Except GoString GoString)
    (currentWords : List GoString) (words : List GoString) : List GoString :=
  match words with
  | [] => currentWords
  | word :: rest =>
    match Stem word "english".toList true with
    | .error _ => stemWords Stem currentWords rest
    | .ok stemmedWord => stemWords Stem (currentWords ++ [stemmedWord]) rest

/-- One iteration of `indexWorker`, for the fetch result `content`. -/
def indexStep (Extract : List Nat → List GoString × List GoString)
    (Stem : GoString → GoString → Bool → Except GoString GoString)
    (Clean : GoString → List GoString → List URL)
    (baseURL hostName : GoString) (st : IndexState) (content : downloadResults) : IndexState :=
  let (words, hrefs) := Extract content.data
  let currentWords := stemWords Stem [] words
  let links := Clean baseURL hrefs
  let st1 := links.foldl (linkStep hostName) st
  { st1 with added := st1.added ++ [(content.url, currentWords)] }

/-- Go `indexWorker` on the fetch results it receives, in order. -/
def indexWorker (Extract : List Nat → List GoString × List GoString)
    (Stem : GoString → GoString → Bool → Except GoString GoString)
    (Clean : GoString → List GoString → List URL)
    (baseURL hostName : GoString) (st : IndexState) (contents : List downloadResults) :
    IndexState :=
  contents.foldl (indexStep Extract Stem Clean baseURL hostName) st

/-! ## `Crawl` -/

/-- The visited map and the download channel as `Crawl` sets them up. -/
def crawlInit (baseURL : GoString) : IndexState :=
  { visitedUrls := mapSet [] baseURL true, chDownload := [baseURL], added := [] }

/-- How far `Crawl` gets before it starts the workers. -/
inductive CrawlStart
  | panicked (logs : List GoString)
  | spawned (logs : List GoString) (hostName : GoString) (crawlDelay : Float64)
      (dissalowList : GoMap) (st : IndexState)
  deriving DecidableEq, Repr

/-- Go `Crawl` up to the `go` statements. `Parse baseURL` is the pair
`url.Parse` returns: the `*URL` (`none` for `nil`) and the error text (`none` for
`nil`). Reading `host.Host` through a nil pointer is a run-time panic. -/
def Crawl (Parse : GoString → Option URL × Option GoString)
    (downloadRobots : GoString → Option GoString)
    (ParseFloat : GoString → Option Float64) (baseURL : GoString) : CrawlStart :=
  let (host, err) := Parse baseURL
  let logs : List GoString :=
    match err with
    | some e => ["URL Parse returned ".toList ++ e]
    | none => []
  match host with
  | none => .panicked logs
  | some h =>
    let hostName := h.Host
    let (crawlDelay, dissalowList) := loadRobots downloadRobots ParseFloat hostName
    .spawned logs hostName crawlDelay dissalowList (crawlInit baseURL)

/-! ## Definitions used to state the properties -/

/-- The pattern `loadRobots` stores for a `Disallow:` line. -/
def disallowPattern (line : GoString) : GoString :=
  ReplaceAll (TrimSpace (TrimPrefix line "Disallow:".toList)) '*' ".*".toList

/-- The number a `Crawl-delay:` line carries, when it parses. -/
def delayOfLine (ParseFloat : GoString → Option Float64) (line : GoString) : Option Float64 :=
  if HasPrefix line "Crawl-delay:".toList then
    ParseFloat (TrimSpace (TrimPrefix line "Crawl-delay:".toList))
  else none

/-- The value of the last `Crawl-delay:` line that parses, `d` when there is none. -/
def lastCrawlDelay (ParseFloat : GoString → Option Float64) (d : Float64)
    (lines : List GoString) : Float64 :=
  ((lines.filterMap (delayOfLine ParseFloat)).getLast?).getD d

/-- The group after the lines `pre`, started in group `b`: decided by the last
`User-agent:` line of `pre`, which selects the matching group when it begins
`User-agent: *`. -/
def groupAfter (b : Bool) (pre : List GoString) : Bool :=
  match (pre.filter (fun l => HasPrefix l "User-agent:".toList)).getLast? with
  | none => b
  | some l => HasPrefix l "User-agent: *".toList

/-- Whether the parser is in the matching group after the lines `pre` of a file. -/
def inMatchingGroup (pre : List GoString) : Bool := groupAfter false pre

/-- The stems of the words the stemmer accepts, in order. -/
def stemsOf (Stem : GoString → GoString → Bool → Except GoString GoString)
    (words : List GoString) : List GoString :=
  words.filterMap (fun w =>
    match Stem w "english".toList true with
    | .error _ => none
    | .ok s => some s)

/-- What the dedup argument maintains: the download channel never received a
URL twice, and every URL it received is marked in the visited map. -/
def SentOnce (st : IndexState) : Prop :=
  st.chDownload.Nodup ∧ ∀ s ∈ st.chDownload, mapGet st.visitedUrls s = true

/-! ## A regular-expression matcher for the patterns `loadRobots` produces -/

/-- One character position of a pattern: an ordinary character or `.`. -/
inductive ReAtom
  | lit (c : Char)
  | any
  deriving DecidableEq, Repr

/-- An atom, possibly followed by `*`. -/
structure RePiece where
  atom : ReAtom
  star : Bool
  deriving DecidableEq, Repr

/-- Whether an atom accepts a character: `.` accepts all but the newline. -/
def ReAtom.accepts (a : ReAtom) (c : Char) : Bool :=
  match a with
  | .lit x => x == c
  | .any => c != '\n'

/-- Characters with a meaning of their own in the syntax of Go regular expressions. -/
def reMeta (c : Char) : Bool :=
  "\\.+*?()|[]{}^$".toList.contains c

/-- Reads a pattern, `prev` being the atom read last and not yet followed by
anything: a `*` turns it into a repetition, and needs one. -/
def reCompileAux (prev : Option ReAtom) (p : GoString) : Option (List RePiece) :=
  match p with
  | [] =>
    match prev with
    | none => some []
    | some b => some [⟨b, false⟩]
  | c :: rest =>
    if c = '*' then
      match prev with
      | none => none
      | some b => (reCompileAux none rest).map (fun r => ⟨b, true⟩ :: r)
    else if c ≠ '.' ∧ reMeta c then none
    else
      let a : ReAtom := if c = '.' then .any else .lit c
      match prev with
      | none => reCompileAux (some a) rest
      | some b => (reCompileAux (some a) rest).map (fun r => ⟨b, false⟩ :: r)

/-- Reads a pattern made of ordinary characters, `.` and `*` after one of them.
`none` for a `*` with nothing to repeat or after another `*` (which Go rejects too)
and for any pattern that uses the rest of the syntax. -/
def reCompile (p : GoString) : Option (List RePiece) := reCompileAux none p

/-- Tries `k` after zero or more characters accepted by `a`. -/
def reStar (a : ReAtom) (k : GoString → Bool) (s : GoString) : Bool :=
  match s with
  | [] => k []
  | c :: cs => k (c :: cs) || (a.accepts c && reStar a k cs)

/-- Whether the pieces match a prefix of `s`. -/
def reMatchHere (r : List RePiece) : GoString → Bool :=
  match r with
  | [] => fun _ => true
  | p :: ps =>
    if p.star then reStar p.atom (reMatchHere ps)
    else fun s =>
      match s with
      | [] => false
      | c :: cs => p.atom.accepts c && reMatchHere ps cs

/-- Whether the pieces match somewhere in `s` (Go patterns are not anchored). -/
def reSearch (r : List RePiece) (s : GoString) : Bool :=
  match s with
  | [] => reMatchHere r []
  | c :: cs => reMatchHere r (c :: cs) || reSearch r cs

/-- The boolean `regexp.MatchString(pattern, s)` returns, for the patterns
`reCompile` reads; `false` for the others, as Go answers for a pattern that does
not compile. The properties of `downloadWorker` are proved for every matcher;
this one instantiates them. -/
def reMatchString (pattern s : GoString) : Bool :=
  match reCompile pattern with
  | none => false
  | some r => reSearch r s

/-! ## The robots parser, line by line -/

theorem hasPrefix_cons (c : Char) (p s : GoString) (h : HasPrefix s (c :: p) = true) :
    ∃ s', s = c :: s' := by
  cases s with
  | nil => simp [HasPrefix] at h
  | cons b s' =>
    simp [HasPrefix] at h
    exact ⟨s', by rw [h.1]⟩

theorem crawlDelay_line_not_userAgent (line : GoString)
    (h : HasPrefix line "Crawl-delay:".toList = true) :
    HasPrefix line "User-agent:".toList = false := by
  obtain ⟨s, rfl⟩ := hasPrefix_cons 'C' "rawl-delay:".toList line h
  rfl

theorem crawlDelay_line_not_disallow (line : GoString)
    (h : HasPrefix line "Crawl-delay:".toList = true) :
    HasPrefix line "Disallow:".toList = false := by
  obtain ⟨s, rfl⟩ := hasPrefix_cons 'C' "rawl-delay:".toList line h
  rfl

theorem disallow_line_not_userAgent (line : GoString)
    (h : HasPrefix line "Disallow:".toList = true) :
    HasPrefix line "User-agent:".toList = false := by
  obtain ⟨s, rfl⟩ := hasPrefix_cons 'D' "isallow:".toList line h
  rfl

theorem userAgentStar_line_userAgent (line : GoString)
    (h : HasPrefix line "User-agent: *".toList = true) :
    HasPrefix line "User-agent:".toList = true := by
  have key : ∀ (p q s : GoString), HasPrefix s (p ++ q) = true → HasPrefix s p = true := by
    intro p
    induction p with
    | nil => intro q s _; cases s <;> rfl
    | cons a p ih =>
      intro q s hs
      cases s with
      | nil => simp [HasPrefix] at hs
      | cons b s =>
        simp [HasPrefix] at hs ⊢
        exact ⟨hs.1, ih q s hs.2⟩
  exact key "User-agent:".toList " *".toList line h

theorem robotsLine_userAgent (PF : GoString → Option Float64) (st : RobotsState)
    (line : GoString) (h : HasPrefix line "User-agent:".toList = true) :
    robotsLine PF st line = { st with currUser := HasPrefix line "User-agent: *".toList } := by
  unfold robotsLine
  rw [if_pos h]
  cases HasPrefix line "User-agent: *".toList <;> rfl

theorem robotsLine_disallow (PF : GoString → Option Float64) (st : RobotsState)
    (line : GoString) (h : HasPrefix line "Disallow:".toList = true)
    (hc : st.currUser = true) :
    robotsLine PF st line =
      { st with dissalowList := mapSet st.dissalowList (disallowPattern line) false } := by
  have hu := disallow_line_not_userAgent line h
  simp only [robotsLine, hu, h, hc, Bool.false_eq_true, if_false, Bool.and_self, if_true,
    disallowPattern]

theorem robotsLine_crawlDelay (PF : GoString → Option Float64) (st : RobotsState)
    (line : GoString) (h : HasPrefix line "Crawl-delay:".toList = true) :
    robotsLine PF st line =
      { st with crawlDelay := (delayOfLine PF line).getD st.crawlDelay } := by
  have hu := crawlDelay_line_not_userAgent line h
  have hd := crawlDelay_line_not_disallow line h
  simp only [robotsLine, delayOfLine, hu, hd, h, Bool.false_eq_true, if_false, Bool.and_false,
    if_true]
  cases PF (TrimSpace (TrimPrefix line "Crawl-delay:".toList)) <;> rfl

theorem robotsLine_other (PF : GoString → Option Float64) (st : RobotsState)
    (line : GoString) (hu : HasPrefix line "User-agent:".toList = false)
    (hd : (st.currUser && HasPrefix line "Disallow:".toList) = false)
    (hc : HasPrefix line "Crawl-delay:".toList = false) :
    robotsLine PF st line = st := by
  simp only [robotsLine, hu, hd, hc, Bool.false_eq_true, if_false]

theorem robotsLine_currUser (PF : GoString → Option Float64) (st : RobotsState)
    (line : GoString) :
    (robotsLine PF st line).currUser =
      if HasPrefix line "User-agent:".toList then HasPrefix line "User-agent: *".toList
      else st.currUser := by
  cases hu : HasPrefix line "User-agent:".toList
  · simp only [Bool.false_eq_true, if_false]
    cases hd : (st.currUser && HasPrefix line "Disallow:".toList)
    · cases hc : HasPrefix line "Crawl-delay:".toList
      · rw [robotsLine_other PF st line hu hd hc]
      · rw [robotsLine_crawlDelay PF st line hc]
    · rw [Bool.and_eq_true] at hd
      rw [robotsLine_disallow PF st line hd.2 hd.1]
  · rw [robotsLine_userAgent PF st line hu]; rfl

theorem robotsLine_crawlDelay_eq (PF : GoString → Option Float64) (st : RobotsState)
    (line : GoString) :
    (robotsLine PF st line).crawlDelay = (delayOfLine PF line).getD st.crawlDelay := by
  cases hc : HasPrefix line "Crawl-delay:".toList
  · have hdl : delayOfLine PF line = none := by
      simp only [delayOfLine, hc, Bool.false_eq_true, if_false]
    rw [hdl]
    cases hu : HasPrefix line "User-agent:".toList
    · cases hd : (st.currUser && HasPrefix line "Disallow:".toList)
      · rw [robotsLine_other PF st line hu hd hc]; rfl
      · rw [Bool.and_eq_true] at hd
        rw [robotsLine_disallow PF st line hd.2 hd.1]; rfl
    · rw [robotsLine_userAgent PF st line hu]; rfl
  · rw [robotsLine_crawlDelay PF st line hc]

theorem robotsLine_dissalowList (PF : GoString → Option Float64) (st : RobotsState)
    (line : GoString) :
    (robotsLine PF st line).dissalowList =
      if st.currUser && HasPrefix line "Disallow:".toList then
        mapSet st.dissalowList (disallowPattern line) false
      else st.dissalowList := by
  cases hd : (st.currUser && HasPrefix line "Disallow:".toList)
  · simp only [Bool.false_eq_true, if_false]
    cases hu : HasPrefix line "User-agent:".toList
    · cases hc : HasPrefix line "Crawl-delay:".toList
      · rw [robotsLine_other PF st line hu hd hc]
      · rw [robotsLine_crawlDelay PF st line hc]
    · rw [robotsLine_userAgent PF st line hu]
  · rw [Bool.and_eq_true] at hd
    rw [robotsLine_disallow PF st line hd.2 hd.1]; rfl

/-! ## Maps -/

theorem mem_mapKeys_mapSet (m : GoMap) (k p : GoString) (v : Bool) :
    p ∈ mapKeys (mapSet m k v) ↔ p = k ∨ p ∈ mapKeys m := by
  induction m with
  | nil => simp [mapSet, mapKeys]
  | cons kv r ih =>
    obtain ⟨k', v'⟩ := kv
    unfold mapSet
    by_cases hk : k' = k
    · rw [if_pos hk]
      subst hk
      simp [mapKeys]
    · rw [if_neg hk]
      have ih' : p ∈ List.map Prod.fst (mapSet r k v) ↔ p = k ∨ p ∈ List.map Prod.fst r := ih
      simp only [mapKeys, List.map_cons, List.mem_cons, ih']
      tauto

theorem mapGet_mapSet_same (m : GoMap) (k : GoString) (v : Bool) :
    mapGet (mapSet m k v) k = v := by
  induction m with
  | nil => simp [mapSet, mapGet]
  | cons kv r ih =>
    obtain ⟨k', v'⟩ := kv
    unfold mapSet
    by_cases hk : k' = k
    · rw [if_pos hk]; simp [mapGet]
    · rw [if_neg hk]; simp [mapGet, hk, ih]

theorem mapGet_mapSet_other (m : GoMap) (k k2 : GoString) (v : Bool) (h : k2 ≠ k) :
    mapGet (mapSet m k v) k2 = mapGet m k2 := by
  induction m with
  | nil => simp [mapSet, mapGet, Ne.symm h]
  | cons kv r ih =>
    obtain ⟨k', v'⟩ := kv
    unfold mapSet
    by_cases hk : k' = k
    · rw [if_pos hk]
      subst hk
      simp [mapGet, Ne.symm h]
    · rw [if_neg hk]
      by_cases hk2 : k' = k2
      · simp [mapGet, hk2]
      · simp [mapGet, hk2, ih]

/-! ## The robots parser over a whole file -/

theorem getLast?_cons_getD {α : Type} (x d : α) (xs : List α) :
    ((x :: xs).getLast?).getD d = (xs.getLast?).getD x := by
  cases xs with
  | nil => rfl
  | cons y ys => simp [List.getLast?]

theorem lastCrawlDelay_cons (PF : GoString → Option Float64) (d : Float64) (l : GoString)
    (ls : List GoString) :
    lastCrawlDelay PF d (l :: ls) = lastCrawlDelay PF ((delayOfLine PF l).getD d) ls := by
  unfold lastCrawlDelay
  cases h : delayOfLine PF l with
  | none => rw [List.filterMap_cons_none h]; rfl
  | some v => rw [List.filterMap_cons_some h, getLast?_cons_getD]; rfl

theorem foldl_crawlDelay (PF : GoString → Option Float64) (lines : List GoString) :
    ∀ st : RobotsState,
      (lines.foldl (robotsLine PF) st).crawlDelay = lastCrawlDelay PF st.crawlDelay lines := by
  induction lines with
  | nil => intro st; rfl
  | cons l ls ih =>
    intro st
    rw [List.foldl_cons, ih, robotsLine_crawlDelay_eq, lastCrawlDelay_cons]

theorem groupAfter_cons (b : Bool) (l : GoString) (pre : List GoString) :
    groupAfter b (l :: pre) =
      groupAfter (if HasPrefix l "User-agent:".toList then HasPrefix l "User-agent: *".toList
        else b) pre := by
  unfold groupAfter
  cases hu : HasPrefix l "User-agent:".toList
  · rw [List.filter_cons_of_neg (by rw [hu]; decide)]
    simp only [Bool.false_eq_true, if_false]
  · rw [List.filter_cons_of_pos (by rw [hu])]
    simp only [if_true]
    cases hf : List.filter (fun l => HasPrefix l "User-agent:".toList) pre with
    | nil => rfl
    | cons y ys => simp [List.getLast?]

theorem foldl_currUser (PF : GoString → Option Float64) (pre : List GoString) :
    ∀ st : RobotsState,
      (pre.foldl (robotsLine PF) st).currUser = groupAfter st.currUser pre := by
  induction pre with
  | nil => intro st; rfl
  | cons l ls ih =>
    intro st
    rw [List.foldl_cons, ih, robotsLine_currUser, groupAfter_cons]

theorem foldl_dissalowList_mem (PF : GoString → Option Float64) (lines : List GoString) :
    ∀ (st : RobotsState) (p : GoString),
      p ∈ mapKeys (lines.foldl (robotsLine PF) st).dissalowList ↔
        p ∈ mapKeys st.dissalowList ∨
        ∃ pre line post, lines = pre ++ line :: post ∧ groupAfter st.currUser pre = true ∧
          HasPrefix line "Disallow:".toList = true ∧ p = disallowPattern line := by
  induction lines with
  | nil =>
    intro st p
    constructor
    · intro h; exact Or.inl h
    · rintro (h | ⟨pre, line, post, h, _⟩)
      · exact h
      · exact absurd h (by simp)
  | cons l ls ih =>
    intro st p
    have hg : ∀ pre, groupAfter (robotsLine PF st l).currUser pre =
        groupAfter st.currUser (l :: pre) := by
      intro pre; rw [robotsLine_currUser, groupAfter_cons]
    rw [List.foldl_cons, ih, robotsLine_dissalowList]
    simp only [hg]
    constructor
    · rintro (h | ⟨pre, line, post, h1, h2, h3, h4⟩)
      · by_cases hc : (st.currUser && HasPrefix l "Disallow:".toList) = true
        · rw [if_pos hc, mem_mapKeys_mapSet] at h
          rw [Bool.and_eq_true] at hc
          rcases h with h | h
          · exact Or.inr ⟨[], l, ls, rfl, hc.1, hc.2, h⟩
          · exact Or.inl h
        · rw [if_neg hc] at h
          exact Or.inl h
      · exact Or.inr ⟨l :: pre, line, post, by rw [h1]; rfl, h2, h3, h4⟩
    · rintro (h | ⟨pre, line, post, h1, h2, h3, h4⟩)
      · left
        by_cases hc : (st.currUser && HasPrefix l "Disallow:".toList) = true
        · rw [if_pos hc, mem_mapKeys_mapSet]; exact Or.inr h
        · rw [if_neg hc]; exact h
      · cases pre with
        | nil =>
          simp only [List.nil_append, List.cons.injEq] at h1
          obtain ⟨rfl, rfl⟩ := h1
          left
          have hb : st.currUser = true := h2
          rw [if_pos (by rw [hb, h3]; rfl), mem_mapKeys_mapSet]
          exact Or.inl h4
        | cons a pre' =>
          simp only [List.cons_append, List.cons.injEq] at h1
          obtain ⟨rfl, rfl⟩ := h1
          exact Or.inr ⟨pre', line, post, rfl, h2, h3, h4⟩

/-! ## Properties of `loadRobots` -/

theorem foldl_dissalowList_ignoring (PF : GoString → Option Float64) (rest : List GoString) :
    ∀ st : RobotsState, st.currUser = false →
      (∀ l ∈ rest, HasPrefix l "User-agent:".toList = false) →
      (rest.foldl (robotsLine PF) st).dissalowList = st.dissalowList := by
  induction rest with
  | nil => intro st _ _; rfl
  | cons l ls ih =>
    intro st hc hno
    have hu : HasPrefix l "User-agent:".toList = false := hno l (List.mem_cons_self l ls)
    have hc' : (robotsLine PF st l).currUser = false := by
      rw [robotsLine_currUser, hu]; exact hc
    have hd : (robotsLine PF st l).dissalowList = st.dissalowList := by
      rw [robotsLine_dissalowList, hc]; rfl
    rw [List.foldl_cons, ih _ hc' (fun x hx => hno x (List.mem_cons_of_mem l hx)), hd]

/-- C3, as the code has it: a line beginning `User-agent:` puts the parser in the
matching group exactly when the line begins `User-agent: *`, whatever follows the
`*`; any other `User-agent:` line puts it in the ignoring group, and the
`Disallow:` lines that follow it, up to the next `User-agent:` line, leave the
disallow set as it was. -/
theorem userAgent_line_selects_group (PF : GoString → Option Float64) (st : RobotsState)
    (line : GoString) (h : HasPrefix line "User-agent:".toList = true) :
    (robotsLine PF st line).currUser = HasPrefix line "User-agent: *".toList ∧
    (robotsLine PF st line).dissalowList = st.dissalowList ∧
    (HasPrefix line "User-agent: *".toList = false →
      ∀ rest : List GoString, (∀ l ∈ rest, HasPrefix l "User-agent:".toList = false) →
        ((line :: rest).foldl (robotsLine PF) st).dissalowList = st.dissalowList) := by
  have hl := robotsLine_userAgent PF st line h
  refine ⟨by rw [hl], by rw [hl], ?_⟩
  intro hs rest hrest
  rw [List.foldl_cons, foldl_dissalowList_ignoring PF rest _ (by rw [hl]; exact hs) hrest, hl]

/-- C3, witness: in the matching group, `User-agent: Googlebot` followed by
`Disallow: /x` adds nothing to the disallow set. -/
theorem userAgent_line_selects_group_witness :
    (["User-agent: Googlebot".toList, "Disallow: /x".toList].foldl
        (robotsLine (fun _ => none)) { robotsInit with currUser := true }).dissalowList = [] :=
  (userAgent_line_selects_group (fun _ => none) { robotsInit with currUser := true }
      "User-agent: Googlebot".toList (by decide)).2.2 (by decide)
    ["Disallow: /x".toList] (by decide)

/-- C3, counterexample: the value of the line `User-agent: *bot` is `*bot`, not `*`,
yet the line puts the parser in the matching group and the `Disallow: /x` after it
is added to the disallow set. -/
theorem userAgent_exact_star_counterexample :
    HasPrefix "User-agent: *bot".toList "User-agent:".toList = true ∧
    TrimSpace (TrimPrefix "User-agent: *bot".toList "User-agent:".toList) = "*bot".toList ∧
    (robotsLine (fun _ => none) robotsInit "User-agent: *bot".toList).currUser = true ∧
    mapKeys (loadRobots (fun _ => some "User-agent: *bot\nDisallow: /x".toList)
      (fun _ => none) "x.test".toList).2 = ["/x".toList] := by
  decide

/-- C7: the crawl delay `loadRobots` returns is the value of the last
`Crawl-delay:` line whose value parses, in whatever group the line stands; a
`Crawl-delay:` line whose value does not parse leaves the delay (and the rest of
the parser's state) as it was, one that parses sets it in either group; the
delay is the default `0.1` when no line carries a parseable delay and when
`robots.txt` is unavailable. -/
theorem loadRobots_crawlDelay (downloadRobots : GoString → Option GoString)
    (PF : GoString → Option Float64) (hostName : GoString) :
    (∀ res, downloadRobots ("http://".toList ++ hostName ++ "/robots.txt".toList) = some res →
      (loadRobots downloadRobots PF hostName).1 =
        lastCrawlDelay PF defaultCrawlDelay (Split res '\n')) ∧
    (∀ (st : RobotsState) (line : GoString), HasPrefix line "Crawl-delay:".toList = true →
      PF (TrimSpace (TrimPrefix line "Crawl-delay:".toList)) = none →
      robotsLine PF st line = st) ∧
    (∀ (st : RobotsState) (line : GoString) (v : Float64),
      HasPrefix line "Crawl-delay:".toList = true →
      PF (TrimSpace (TrimPrefix line "Crawl-delay:".toList)) = some v →
      robotsLine PF st line = { st with crawlDelay := v }) ∧
    (∀ res, downloadRobots ("http://".toList ++ hostName ++ "/robots.txt".toList) = some res →
      (∀ l ∈ Split res '\n', delayOfLine PF l = none) →
      (loadRobots downloadRobots PF hostName).1 = defaultCrawlDelay) ∧
    (downloadRobots ("http://".toList ++ hostName ++ "/robots.txt".toList) = none →
      (loadRobots downloadRobots PF hostName).1 = defaultCrawlDelay) := by
  have hmain : ∀ res,
      downloadRobots ("http://".toList ++ hostName ++ "/robots.txt".toList) = some res →
      (loadRobots downloadRobots PF hostName).1 =
        lastCrawlDelay PF defaultCrawlDelay (Split res '\n') := by
    intro res hres
    simp only [loadRobots, hres]
    exact foldl_crawlDelay PF (Split res '\n') robotsInit
  refine ⟨hmain, ?_, ?_, ?_, ?_⟩
  · intro st line hc hp
    have hd : delayOfLine PF line = none := by
      simp only [delayOfLine, hc, if_true, hp]
    rw [robotsLine_crawlDelay PF st line hc, hd]; rfl
  · intro st line v hc hp
    have hd : delayOfLine PF line = some v := by
      simp only [delayOfLine, hc, if_true, hp]
    rw [robotsLine_crawlDelay PF st line hc, hd]; rfl
  · intro res hres hnone
    rw [hmain res hres]
    unfold lastCrawlDelay
    have : (Split res '\n').filterMap (delayOfLine PF) = [] := by
      rw [List.filterMap_eq_nil_iff]; exact hnone
    rw [this]; rfl
  · intro hres
    simp only [loadRobots, hres]

/-- C8: the keys of the disallow map `loadRobots` returns are exactly the patterns
(value trimmed, every `*` replaced by `.*`) of the `Disallow:` lines that stand
after a prefix of the file which leaves the parser in the matching group; the
parser is in the matching group after a prefix exactly when `inMatchingGroup` says
so, never after a prefix without a `User-agent:` line; the map is empty when
`robots.txt` is unavailable. -/
theorem loadRobots_dissalowList (downloadRobots : GoString → Option GoString)
    (PF : GoString → Option Float64) (hostName : GoString) :
    (∀ res, downloadRobots ("http://".toList ++ hostName ++ "/robots.txt".toList) = some res →
      ∀ p : GoString, p ∈ mapKeys (loadRobots downloadRobots PF hostName).2 ↔
        ∃ pre line post, Split res '\n' = pre ++ line :: post ∧ inMatchingGroup pre = true ∧
          HasPrefix line "Disallow:".toList = true ∧
          p = ReplaceAll (TrimSpace (TrimPrefix line "Disallow:".toList)) '*' ".*".toList) ∧
    (∀ pre : List GoString,
      (pre.foldl (robotsLine PF) robotsInit).currUser = inMatchingGroup pre) ∧
    (∀ pre : List GoString, (∀ l ∈ pre, HasPrefix l "User-agent:".toList = false) →
      inMatchingGroup pre = false) ∧
    (downloadRobots ("http://".toList ++ hostName ++ "/robots.txt".toList) = none →
      (loadRobots downloadRobots PF hostName).2 = []) := by
  refine ⟨?_, ?_, ?_, ?_⟩
  · intro res hres p
    simp only [loadRobots, hres]
    rw [foldl_dissalowList_mem PF (Split res '\n') robotsInit p]
    constructor
    · rintro (h | h)
      · exact absurd h (by simp [robotsInit, mapKeys])
      · exact h
    · intro h; exact Or.inr h
  · intro pre
    exact foldl_currUser PF pre robotsInit
  · intro pre hpre
    unfold inMatchingGroup groupAfter
    have : pre.filter (fun l => HasPrefix l "User-agent:".toList) = [] := by
      rw [List.filter_eq_nil_iff]
      intro l hl; rw [hpre l hl]; decide
    rw [this]; rfl
  · intro hres
    simp only [loadRobots, hres]

/-! ## Properties of `downloadWorker` -/

theorem allowed_iff (M : GoString → GoString → Bool) (keys : List GoString)
    (url : GoString) :
    allowed M keys url = true ↔ ∀ p ∈ keys, M p url = false := by
  induction keys with
  | nil => simp [allowed]
  | cons k ks ih =>
    unfold allowed
    cases hk : M k url
    · simp only [Bool.false_eq_true, if_false, ih, List.mem_cons, forall_eq_or_imp, hk,
        true_and]
    · simp only [if_true, Bool.false_eq_true, List.mem_cons, forall_eq_or_imp, hk, false_and,
        Bool.true_eq_false]

theorem allowed_eq_false_iff (M : GoString → GoString → Bool) (keys : List GoString)
    (url : GoString) :
    allowed M keys url = false ↔ ∃ p ∈ keys, M p url = true := by
  rw [← Bool.not_eq_true, allowed_iff]
  push_neg
  simp only [Bool.not_eq_false]

theorem downloadWorker_blocked (M : GoString → GoString → Bool)
    (Download : GoString → List downloadResults) (dl : GoMap) (cd : Float64)
    (hall : ∀ url, allowed M (mapKeys dl) url = false) (tasks : List GoString) :
    ∀ st : DownloadState, downloadWorker M Download dl cd st tasks = st := by
  induction tasks with
  | nil => intro st; rfl
  | cons u us ih =>
    intro st
    have hstep : downloadStep M Download dl cd st u = st := by
      simp only [downloadStep, hall u, Bool.false_eq_true, if_false]
    unfold downloadWorker at ih ⊢
    rw [List.foldl_cons, hstep, ih]

/-- C2, on the code: for an allowed URL and the default crawl delay `0.1` the
worker calls `time.Sleep` with `0` nanoseconds and so does not pause, where the
claim has it pause 100 ms (`100000000` ns); and for the delay `2.5` the argument
is `2` seconds. The conversion `time.Duration(crawlDelay)` drops the fraction
before the multiplication by `time.Second`. -/
theorem default_crawlDelay_sleeps_zero (M : GoString → GoString → Bool)
    (Download : GoString → List downloadResults) (dl : GoMap) (st : DownloadState)
    (url : GoString) (h : allowed M (mapKeys dl) url = true) :
    (downloadStep M Download dl defaultCrawlDelay st url).slept = st.slept ++ [some 0] ∧
    Sleep 0 = 0 ∧
    (downloadStep M Download dl (.finite 5 (-1)) st url).slept =
      st.slept ++ [some (2 * Second)] := by
  simp only [downloadStep, h, if_true]
  exact ⟨rfl, rfl, rfl⟩

/-- C2, witness: with an empty disallow map every URL is allowed, and the first
task of a worker with the default delay is followed by a sleep of `0` ns. -/
theorem default_crawlDelay_sleeps_zero_witness :
    (downloadStep reMatchString (fun u => [⟨u, []⟩]) [] defaultCrawlDelay ⟨[], [], []⟩
      "http://x.test/a".toList).slept = [some 0] :=
  (default_crawlDelay_sleeps_zero reMatchString (fun u => [⟨u, []⟩]) [] ⟨[], [], []⟩
    "http://x.test/a".toList (by decide)).1

/-- C4: for every matcher, disallow map and task, `Download` is called for the
URL exactly when no key of the disallow map matches it, and then its results go
to the extract channel; when some key matches, the step changes nothing: no
call, nothing sent, no sleep. With the map loaded from `Disallow: /private/*`,
`http://x.test/private/page` is not fetched and `http://x.test/public/page` is. -/
theorem downloadStep_fetches_iff_unmatched (M : GoString → GoString → Bool)
    (Download : GoString → List downloadResults) (dl : GoMap) (cd : Float64)
    (st : DownloadState) (url : GoString) :
    ((downloadStep M Download dl cd st url).fetched = st.fetched ++ [url] ↔
      ∀ p ∈ mapKeys dl, M p url = false) ∧
    ((∀ p ∈ mapKeys dl, M p url = false) →
      (downloadStep M Download dl cd st url).chExtract = st.chExtract ++ Download url) ∧
    ((∃ p ∈ mapKeys dl, M p url = true) → downloadStep M Download dl cd st url = st) ∧
    mapKeys (loadRobots (fun _ => some "User-agent: *\nDisallow: /private/*".toList)
      (fun _ => none) "x.test".toList).2 = ["/private/.*".toList] ∧
    downloadWorker reMatchString (fun u => [⟨u, []⟩])
      (loadRobots (fun _ => some "User-agent: *\nDisallow: /private/*".toList)
        (fun _ => none) "x.test".toList).2 defaultCrawlDelay ⟨[], [], []⟩
      ["http://x.test/private/page".toList, "http://x.test/public/page".toList] =
      ⟨[⟨"http://x.test/public/page".toList, []⟩], ["http://x.test/public/page".toList],
        [some 0]⟩ := by
  refine ⟨?_, ?_, ?_, by decide, by decide⟩
  · rw [← allowed_iff]
    cases ha : allowed M (mapKeys dl) url
    · simp only [downloadStep, ha, Bool.false_eq_true, if_false, iff_false]
      intro h
      have := congrArg List.length h
      simp at this
    · simp only [downloadStep, ha, if_true]
  · intro h
    rw [← allowed_iff] at h
    simp only [downloadStep, h, if_true]
  · intro h
    rw [← allowed_eq_false_iff] at h
    simp only [downloadStep, h, Bool.false_eq_true, if_false]

theorem trimSpace_of_all_space (s : GoString) (h : s.all isSpace = true) :
    TrimSpace s = [] := by
  unfold TrimSpace
  have : s.dropWhile isSpace = [] := by
    rw [List.dropWhile_eq_nil_iff]
    intro c hc
    exact (List.all_eq_true.mp h) c hc
  rw [this]; rfl

/-- C10: when `robots.txt` has, in the matching group, a `Disallow:` line whose
value is empty or all white space, `loadRobots` puts the empty pattern in the
disallow map, and with a matcher for which the empty pattern matches every
string the download worker fetches none of its tasks, whatever they are: its
state never changes. -/
theorem empty_disallow_blocks_every_url (M : GoString → GoString → Bool)
    (hM : ∀ s, M [] s = true) (downloadRobots : GoString → Option GoString)
    (PF : GoString → Option Float64) (Download : GoString → List downloadResults)
    (hostName res : GoString) (pre : List GoString) (line : GoString)
    (post : List GoString)
    (hres : downloadRobots ("http://".toList ++ hostName ++ "/robots.txt".toList) = some res)
    (hsplit : Split res '\n' = pre ++ line :: post) (hgrp : inMatchingGroup pre = true)
    (hdis : HasPrefix line "Disallow:".toList = true)
    (hval : (TrimPrefix line "Disallow:".toList).all isSpace = true) :
    [] ∈ mapKeys (loadRobots downloadRobots PF hostName).2 ∧
    ∀ (st : DownloadState) (tasks : List GoString),
      downloadWorker M Download (loadRobots downloadRobots PF hostName).2
        (loadRobots downloadRobots PF hostName).1 st tasks = st := by
  have hmem : [] ∈ mapKeys (loadRobots downloadRobots PF hostName).2 := by
    simp only [loadRobots, hres]
    rw [foldl_dissalowList_mem PF (Split res '\n') robotsInit []]
    refine Or.inr ⟨pre, line, post, hsplit, hgrp, hdis, ?_⟩
    unfold disallowPattern
    rw [trimSpace_of_all_space _ hval]; rfl
  refine ⟨hmem, ?_⟩
  intro st tasks
  apply downloadWorker_blocked
  intro url
  rw [allowed_eq_false_iff]
  exact ⟨[], hmem, hM url⟩

/-- C10, witness: after `User-agent: *` and a bare `Disallow:`, the worker is
handed the seed and another URL and fetches neither. -/
theorem empty_disallow_blocks_every_url_witness :
    downloadWorker reMatchString (fun u => [⟨u, []⟩])
      (loadRobots (fun _ => some "User-agent: *\nDisallow: ".toList) (fun _ => none)
        "x.test".toList).2
      (loadRobots (fun _ => some "User-agent: *\nDisallow: ".toList) (fun _ => none)
        "x.test".toList).1 ⟨[], [], []⟩
      ["http://x.test/".toList, "http://x.test/a".toList] = ⟨[], [], []⟩ :=
  (empty_disallow_blocks_every_url reMatchString
    (fun s => by cases s <;> rfl)
    (fun _ => some "User-agent: *\nDisallow: ".toList) (fun _ => none) (fun u => [⟨u, []⟩])
    "x.test".toList "User-agent: *\nDisallow: ".toList ["User-agent: *".toList]
    "Disallow: ".toList [] rfl (by decide) (by decide) (by decide) (by decide)).2
    ⟨[], [], []⟩ ["http://x.test/".toList, "http://x.test/a".toList]

/-! ## Properties of `indexWorker` -/

theorem stemWords_eq (Stem : GoString → GoString → Bool → Except GoString GoString)
    (words : List GoString) :
    ∀ acc : List GoString, stemWords Stem acc words = acc ++ stemsOf Stem words := by
  induction words with
  | nil => intro acc; simp [stemWords, stemsOf]
  | cons w ws ih =>
    intro acc
    unfold stemWords
    cases hs : Stem w "english".toList true with
    | error e =>
      have : stemsOf Stem (w :: ws) = stemsOf Stem ws := by
        unfold stemsOf
        rw [List.filterMap_cons_none (by rw [hs])]
      rw [this]
      exact ih acc
    | ok s =>
      have : stemsOf Stem (w :: ws) = s :: stemsOf Stem ws := by
        unfold stemsOf
        rw [List.filterMap_cons_some (by rw [hs])]
      rw [this]
      simp only [ih, List.append_assoc, List.singleton_append]

theorem linkStep_added (hostName : GoString) (st : IndexState) (link : URL) :
    (linkStep hostName st link).added = st.added := by
  unfold linkStep
  split <;> rfl

theorem foldl_linkStep_added (hostName : GoString) (links : List URL) :
    ∀ st : IndexState, (links.foldl (linkStep hostName) st).added = st.added := by
  induction links with
  | nil => intro st; rfl
  | cons l ls ih => intro st; rw [List.foldl_cons, ih, linkStep_added]

theorem linkStep_visited_mono (hostName : GoString) (st : IndexState) (link : URL)
    (u : GoString) (h : mapGet st.visitedUrls u = true) :
    mapGet (linkStep hostName st link).visitedUrls u = true := by
  unfold linkStep
  split
  · by_cases hu : u = link.String
    · rw [hu]; exact mapGet_mapSet_same _ _ _
    · show mapGet (mapSet st.visitedUrls link.String true) u = true
      rw [mapGet_mapSet_other _ _ _ _ hu]; exact h
  · exact h

theorem foldl_linkStep_visited_mono (hostName : GoString) (links : List URL) (u : GoString) :
    ∀ st : IndexState, mapGet st.visitedUrls u = true →
      mapGet (links.foldl (linkStep hostName) st).visitedUrls u = true := by
  induction links with
  | nil => intro st h; exact h
  | cons l ls ih =>
    intro st h
    rw [List.foldl_cons]
    exact ih _ (linkStep_visited_mono hostName st l u h)

theorem linkStep_sentOnce (hostName : GoString) (st : IndexState) (link : URL)
    (h : SentOnce st) : SentOnce (linkStep hostName st link) := by
  obtain ⟨hnd, hvis⟩ := h
  unfold linkStep
  split
  · rename_i hc
    rw [Bool.and_eq_true, Bool.not_eq_true'] at hc
    have hnot : link.String ∉ st.chDownload := by
      intro hin
      rw [hvis _ hin] at hc
      exact absurd hc.1 (by decide)
    constructor
    · show (st.chDownload ++ [link.String]).Nodup
      rw [List.nodup_append]
      refine ⟨hnd, List.nodup_singleton _, ?_⟩
      intro a ha hb
      rw [List.mem_singleton] at hb
      exact hnot (hb ▸ ha)
    · intro s hs
      show mapGet (mapSet st.visitedUrls link.String true) s = true
      have hs' : s ∈ st.chDownload ++ [link.String] := hs
      by_cases hu : s = link.String
      · rw [hu]; exact mapGet_mapSet_same _ _ _
      · rw [mapGet_mapSet_other _ _ _ _ hu]
        rw [List.mem_append, List.mem_singleton] at hs'
        rcases hs' with h1 | h1
        · exact hvis s h1
        · exact absurd h1 hu
  · exact ⟨hnd, hvis⟩

theorem foldl_linkStep_sentOnce (hostName : GoString) (links : List URL) :
    ∀ st : IndexState, SentOnce st → SentOnce (links.foldl (linkStep hostName) st) := by
  induction links with
  | nil => intro st h; exact h
  | cons l ls ih =>
    intro st h
    rw [List.foldl_cons]
    exact ih _ (linkStep_sentOnce hostName st l h)

theorem indexStep_sentOnce (Extract : List Nat → List GoString × List GoString)
    (Stem : GoString → GoString → Bool → Except GoString GoString)
    (Clean : GoString → List GoString → List URL) (baseURL hostName : GoString)
    (st : IndexState) (content : downloadResults) (h : SentOnce st) :
    SentOnce (indexStep Extract Stem Clean baseURL hostName st content) :=
  foldl_linkStep_sentOnce hostName (Clean baseURL (Extract content.data).2) st h

theorem indexWorker_sentOnce (Extract : List Nat → List GoString × List GoString)
    (Stem : GoString → GoString → Bool → Except GoString GoString)
    (Clean : GoString → List GoString → List URL) (baseURL hostName : GoString)
    (contents : List downloadResults) :
    ∀ st : IndexState, SentOnce st →
      SentOnce (indexWorker Extract Stem Clean baseURL hostName st contents) := by
  induction contents with
  | nil => intro st h; exact h
  | cons c cs ih =>
    intro st h
    unfold indexWorker at ih ⊢
    rw [List.foldl_cons]
    exact ih _ (indexStep_sentOnce Extract Stem Clean baseURL hostName st c h)

theorem crawlInit_sentOnce (baseURL : GoString) : SentOnce (crawlInit baseURL) := by
  constructor
  · exact List.nodup_singleton _
  · intro s hs
    have hs' : s ∈ [baseURL] := hs
    rw [List.mem_singleton] at hs'
    rw [hs']
    exact mapGet_mapSet_same _ _ _

/-- C5: from the state `Crawl` sets up (the seed marked visited and sent on the
download channel), after `indexWorker` has handled any sequence of fetch results,
whatever words and links the pages yield, the values sent on the download
channel are pairwise distinct; the same holds after any sequence of cleaned
links; and one page never unmarks a URL: what the visited map held before
`indexStep` it holds after. -/
theorem indexWorker_sends_each_url_once
    (Extract : List Nat → List GoString × List GoString)
    (Stem : GoString → GoString → Bool → Except GoString GoString)
    (Clean : GoString → List GoString → List URL) (baseURL hostName : GoString) :
    (∀ contents : List downloadResults,
      (indexWorker Extract Stem Clean baseURL hostName (crawlInit baseURL)
        contents).chDownload.Nodup) ∧
    (∀ links : List URL,
      (links.foldl (linkStep hostName) (crawlInit baseURL)).chDownload.Nodup) ∧
    (∀ (st : IndexState) (content : downloadResults) (u : GoString),
      mapGet st.visitedUrls u = true →
      mapGet (indexStep Extract Stem Clean baseURL hostName st content).visitedUrls u = true) ∧
    (∀ (st : IndexState) (contents : List downloadResults) (u : GoString),
      mapGet st.visitedUrls u = true →
      mapGet (indexWorker Extract Stem Clean baseURL hostName st contents).visitedUrls u
        = true) := by
  refine ⟨?_, ?_, ?_, ?_⟩
  · intro contents
    exact (indexWorker_sentOnce Extract Stem Clean baseURL hostName contents _
      (crawlInit_sentOnce baseURL)).1
  · intro links
    exact (foldl_linkStep_sentOnce hostName links _ (crawlInit_sentOnce baseURL)).1
  · intro st content u h
    exact foldl_linkStep_visited_mono hostName _ u st h
  · intro st contents
    induction contents generalizing st with
    | nil => intro u h; exact h
    | cons c cs ih =>
      intro u h
      unfold indexWorker at ih ⊢
      rw [List.foldl_cons]
      exact ih _ u (foldl_linkStep_visited_mono hostName _ u st h)

theorem foldl_linkStep_foreign (hostName : GoString) (links : List URL)
    (h : ∀ l ∈ links, l.Host ≠ hostName) :
    ∀ st : IndexState, links.foldl (linkStep hostName) st = st := by
  induction links with
  | nil => intro st; rfl
  | cons l ls ih =>
    intro st
    have hl : l.Host ≠ hostName := h l (List.mem_cons_self l ls)
    have hstep : linkStep hostName st l = st := by
      unfold linkStep
      rw [if_neg]
      rw [Bool.and_eq_true, beq_iff_eq]
      exact fun hc => hl hc.2.symm
    rw [List.foldl_cons, hstep]
    exact ih (fun x hx => h x (List.mem_cons_of_mem l hx)) st

theorem foldl_linkStep_sent_from (hostName : GoString) (links : List URL) :
    ∀ (st : IndexState) (s : GoString),
      s ∈ (links.foldl (linkStep hostName) st).chDownload →
      s ∈ st.chDownload ∨ ∃ l ∈ links, l.Host = hostName ∧ l.String = s := by
  induction links with
  | nil => intro st s h; exact Or.inl h
  | cons l ls ih =>
    intro st s h
    rw [List.foldl_cons] at h
    rcases ih _ s h with h1 | ⟨x, hx, hh, hs⟩
    · unfold linkStep at h1
      split at h1
      · rename_i hc
        rw [Bool.and_eq_true, beq_iff_eq] at hc
        have h1' : s ∈ st.chDownload ++ [l.String] := h1
        rw [List.mem_append, List.mem_singleton] at h1'
        rcases h1' with h2 | h2
        · exact Or.inl h2
        · exact Or.inr ⟨l, List.mem_cons_self l ls, hc.2.symm, h2.symm⟩
      · exact Or.inl h1
    · exact Or.inr ⟨x, List.mem_cons_of_mem l hx, hh, hs⟩

/-- C6: for one cleaned link, `indexWorker` sends it on the download channel and
marks it visited when it is not yet marked and its host is the origin host, and
otherwise leaves channel and map as they are; links of another host never change
the state, however many of them are handled, and whatever is sent while handling
any list of links is the string of a link of the origin host. -/
theorem linkStep_enqueues_iff_new_same_host (hostName : GoString) (st : IndexState) :
    (∀ link : URL, mapGet st.visitedUrls link.String = false → hostName = link.Host →
      linkStep hostName st link =
        { st with chDownload := st.chDownload ++ [link.String],
                  visitedUrls := mapSet st.visitedUrls link.String true } ∧
      mapGet (linkStep hostName st link).visitedUrls link.String = true) ∧
    (∀ link : URL, ¬ (mapGet st.visitedUrls link.String = false ∧ hostName = link.Host) →
      linkStep hostName st link = st) ∧
    (∀ links : List URL, (∀ l ∈ links, l.Host ≠ hostName) →
      links.foldl (linkStep hostName) st = st) ∧
    (∀ (links : List URL) (s : GoString),
      s ∈ (links.foldl (linkStep hostName) st).chDownload →
      s ∈ st.chDownload ∨ ∃ l ∈ links, l.Host = hostName ∧ l.String = s) := by
  refine ⟨?_, ?_, ?_, ?_⟩
  · intro link hv hh
    have hstep : linkStep hostName st link =
        { st with chDownload := st.chDownload ++ [link.String],
                  visitedUrls := mapSet st.visitedUrls link.String true } := by
      unfold linkStep
      rw [if_pos]
      rw [Bool.and_eq_true, beq_iff_eq, Bool.not_eq_true']
      exact ⟨hv, hh⟩
    refine ⟨hstep, ?_⟩
    rw [hstep]
    exact mapGet_mapSet_same _ _ _
  · intro link hn
    unfold linkStep
    rw [if_neg]
    rw [Bool.and_eq_true, beq_iff_eq, Bool.not_eq_true']
    exact hn
  · intro links h
    exact foldl_linkStep_foreign hostName links h st
  · intro links s h
    exact foldl_linkStep_sent_from hostName links st s h

/-- C9: for one fetch result, `indexWorker` calls `AddToIndex` once, after the
links, with the result's URL and the stems, in page order, of the extracted words
the stemmer accepts: a word it rejects contributes nothing, every other word its
stem, and the call is made when no stem is left too. -/
theorem indexStep_adds_accepted_stems
    (Extract : List Nat → List GoString × List GoString)
    (Stem : GoString → GoString → Bool → Except GoString GoString)
    (Clean : GoString → List GoString → List URL) (baseURL hostName : GoString)
    (st : IndexState) (content : downloadResults) :
    (indexStep Extract Stem Clean baseURL hostName st content).added =
      st.added ++ [(content.url, stemsOf Stem (Extract content.data).1)] ∧
    (∀ s : GoString, s ∈ stemsOf Stem (Extract content.data).1 ↔
      ∃ w ∈ (Extract content.data).1, Stem w "english".toList true = .ok s) ∧
    ((∀ w ∈ (Extract content.data).1, ∃ e, Stem w "english".toList true = .error e) →
      (indexStep Extract Stem Clean baseURL hostName st content).added =
        st.added ++ [(content.url, [])]) := by
  have hadd : (indexStep Extract Stem Clean baseURL hostName st content).added =
      st.added ++ [(content.url, stemsOf Stem (Extract content.data).1)] := by
    show (List.foldl (linkStep hostName) st (Clean baseURL (Extract content.data).2)).added ++
      [(content.url, stemWords Stem [] (Extract content.data).1)] = _
    rw [foldl_linkStep_added, stemWords_eq, List.nil_append]
  refine ⟨hadd, ?_, ?_⟩
  · intro s
    unfold stemsOf
    rw [List.mem_filterMap]
    constructor
    · rintro ⟨w, hw, hs⟩
      refine ⟨w, hw, ?_⟩
      cases hst : Stem w "english".toList true with
      | error e => rw [hst] at hs; exact absurd hs (by simp)
      | ok t =>
        rw [hst] at hs
        simp only [Option.some.injEq] at hs
        rw [hs]
    · rintro ⟨w, hw, hs⟩
      exact ⟨w, hw, by rw [hs]⟩
  · intro hall
    rw [hadd]
    have : stemsOf Stem (Extract content.data).1 = [] := by
      unfold stemsOf
      rw [List.filterMap_eq_nil_iff]
      intro w hw
      obtain ⟨e, he⟩ := hall w hw
      rw [he]
    rw [this]

/-! ## `Crawl` -/

/-- C1, on the code: when `url.Parse` reports an error for `baseURL` (a nil URL
and a non-nil error), `Crawl` logs the error and then panics reading `host.Host`;
it does not go on to load the robots policy, seed the channel or start the
workers, as the claim has it. -/
theorem Crawl_panics_on_parse_error (Parse : GoString → Option URL × Option GoString)
    (downloadRobots : GoString → Option GoString) (PF : GoString → Option Float64)
    (baseURL e : GoString) (h : Parse baseURL = (none, some e)) :
    Crawl Parse downloadRobots PF baseURL =
      .panicked ["URL Parse returned ".toList ++ e] := by
  simp only [Crawl, h]

/-- C1, witness: the seed `:foo`, which `url.Parse` rejects for its missing
scheme. -/
theorem Crawl_panics_on_parse_error_witness :
    Crawl (fun u => if u = ":foo".toList then (none, some "missing protocol scheme".toList)
        else (some ⟨[], u⟩, none)) (fun _ => none) (fun _ => none) ":foo".toList =
      .panicked ["URL Parse returned missing protocol scheme".toList] :=
  Crawl_panics_on_parse_error _ (fun _ => none) (fun _ => none) ":foo".toList
    "missing protocol scheme".toList (by decide)

end Crawler
